import Mathlib

/-
Verification development for the go-cineasts-cypher exporter
(src/cineasts-cypher.go and src/cineasts-csv.go).

Shallow embedding conventions:
  * Go strings are modelled as Lean `String`s, i.e. sequences of characters
    (the inputs handled by the program are ASCII, where byte and character
    indexing coincide).
  * Go `int64`/`int` are modelled as `Int`.
  * Go `float64` (only the movie vote average) is modelled as `Rat`; the code
    only compares it with zero and prints it, no arithmetic is performed.
  * Printing to stdout / a csv.Writer is modelled by returning the list of
    emitted statements (inductive `CypherLine`) resp. records (`List String`).
  * The file cache plus HTTP fetch (`getCacheOrRequest`) is modelled by a
    small program type `Prog` whose interpreter `runProg` threads the cache
    (a partial map from file-safe keys to bytes) and records cache misses.
-/

/-! ### Data model (the JSON structs of both Go files) -/

structure GenreType where
  id : Int
  name : String
  deriving DecidableEq

structure CastType where
  id : Int
  name : String
  character : String
  deriving DecidableEq

structure CrewType where
  id : Int
  name : String
  job : String
  deriving DecidableEq

structure CastsType where
  cast : List CastType
  crew : List CrewType
  deriving DecidableEq

structure MovieType where
  id : Int
  title : String
  tagline : String
  releaseDate : String
  genres : List GenreType
  casts : CastsType
  voteAverage : Rat
  deriving DecidableEq

structure PersonType where
  id : Int
  name : String
  birthday : String
  deathday : String
  deriving DecidableEq

structure DiscoverPage where
  page : Int
  results : List MovieType
  totalPages : Int
  totalResults : Int
  deriving DecidableEq

/-! ### String helpers of the Go sources -/

/-- Model of `safeWithReplace` (regexp `[^a-zA-Z]` replaced by `r`):
every non-alphabetic character of `s` is replaced by the string `r`.
`Char.isAlpha` is exactly the class `[a-zA-Z]`. -/
def safeWithReplace (s r : String) : String :=
  String.mk ((s.data.map (fun c => if c.isAlpha then [c] else r.data)).flatten)

/-- Model of `safe`: non-alphabetic characters become underscores. -/
def safe (s : String) : String := safeWithReplace s "_"

/-- First replacement pass of `quotes`: every backslash is doubled
(regexp `\\` replaced by `\\\\`). -/
def escBackslash : List Char → List Char
  | [] => []
  | c :: cs => if c = '\\' then '\\' :: '\\' :: escBackslash cs else c :: escBackslash cs

/-- Second replacement pass of `quotes`: a backslash is inserted before every
double quote (regexp `"` replaced by `\"`). -/
def escQuote : List Char → List Char
  | [] => []
  | c :: cs => if c = '"' then '\\' :: '"' :: escQuote cs else c :: escQuote cs

/-- Model of `quotes`: escape backslashes, then escape double quotes, then
wrap the result in double quotes. -/
def quotes (s : String) : String :=
  "\"" ++ String.mk (escQuote (escBackslash s.data)) ++ "\""

/-- Spec-side inverse of the escaping inside `quotes`: a backslash makes the
following character literal. Fails on a trailing lone backslash. -/
def unescapeChars : List Char → Option (List Char)
  | [] => some []
  | c :: cs =>
    if c = '\\' then
      match cs with
      | [] => none
      | d :: ds => (unescapeChars ds).map (fun r => d :: r)
    else
      (unescapeChars cs).map (fun r => c :: r)

/-- Spec-side parser of a quoted literal: strip one double quote from each
end and undo the escaping. -/
def unquote (s : String) : Option String :=
  match s.data with
  | [] => none
  | c :: rest =>
    if c = '"' ∧ rest ≠ [] ∧ rest.getLast? = some '"' then
      (unescapeChars rest.dropLast).map String.mk
    else
      none

/-- Digit accumulator used by the model of `strconv.Atoi`; fails on the
first non-digit character. -/
def digitsToNatAux : List Char → Nat → Option Nat
  | [], acc => some acc
  | c :: cs, acc =>
    if c.isDigit then digitsToNatAux cs (acc * 10 + (c.toNat - 48)) else none

/-- All-digit parse of a nonempty character list. -/
def parseNatDigits (cs : List Char) : Option Nat :=
  if cs = [] then none else digitsToNatAux cs 0

/-- Model of `strconv.Atoi` as used by the sources: optional sign followed by
digits; any malformed input yields 0 because the callers discard the error
(`born, _ := strconv.Atoi(...)`). -/
def atoi (s : String) : Int :=
  match s.data with
  | '+' :: cs => (parseNatDigits cs).elim 0 (fun n => (n : Int))
  | '-' :: cs => (parseNatDigits cs).elim 0 (fun n => -(n : Int))
  | cs => (parseNatDigits cs).elim 0 (fun n => (n : Int))

/-- First `n` characters of a string (Go slice `s[0:n]`). -/
def strTake (s : String) (n : Nat) : String := String.mk (s.data.take n)

/-- Model of `getBorn`: the year parsed from the first 4 characters of the
birthday field, but only when the field is strictly longer than 4
characters; otherwise 0. -/
def getBorn (p : PersonType) : Int :=
  if 4 < p.birthday.length then atoi (strTake p.birthday 4) else 0

/-- Model of `getDied`: the same rule applied to the deathday field. -/
def getDied (p : PersonType) : Int :=
  if 4 < p.deathday.length then atoi (strTake p.deathday 4) else 0

/-- Go `strings.TrimSpace`: whitespace stripped from both ends. -/
def trimSpace (s : String) : String :=
  String.mk (((s.data.dropWhile Char.isWhitespace).reverse.dropWhile Char.isWhitespace).reverse)

/-- Go `strings.Trim(s, "_")`: underscores stripped from both ends,
as applied to `safe(name)` in the person-eligibility guards. -/
def trimUnderscore (s : String) : String :=
  String.mk (((s.data.dropWhile (fun c => c = '_')).reverse.dropWhile (fun c => c = '_')).reverse)

/-! ### The character-list splitter (`makeCharsString`) -/

/-- The delimiters of the regexp split in `makeCharsString`. -/
def isDelim (c : Char) : Bool := c = '/' || c = '\\'

/-- Split a character list at its first delimiter, if any. -/
def splitFirst : List Char → Option (List Char × List Char)
  | [] => none
  | c :: cs =>
    if isDelim c then some ([], cs)
    else
      match splitFirst cs with
      | none => none
      | some pq => some (c :: pq.1, pq.2)

/-- Model of Go `regexp.Split(s, n)` for `n > 0`: at most `n` substrings,
the final substring being the unsplit remainder. -/
def splitCapped : Nat → List Char → List (List Char)
  | 0, _ => []
  | 1, cs => [cs]
  | n + 2, cs =>
    match splitFirst cs with
    | none => [cs]
    | some pq => pq.1 :: splitCapped (n + 1) pq.2

/-- The list of trimmed parts built by the loop of `makeCharsString` in both
variants: split on `/` and `\` capped at 100 substrings, then TrimSpace. -/
def splitTrim (s : String) : List String :=
  (splitCapped 100 s.data).map (fun cs => trimSpace (String.mk cs))

/-- `makeCharsString` of cineasts-cypher.go: each trimmed part is quoted and
the parts are joined with commas. -/
def makeCharsString (char : String) : String :=
  String.intercalate "," ((splitTrim char).map quotes)

/-- `makeCharsString` of cineasts-csv.go: the trimmed parts are joined with
colons, without quoting. -/
def makeCharsStringCSV (char : String) : String :=
  String.intercalate ":" (splitTrim char)

/-- Delimiter-freeness of a segment (no `/` and no `\`). -/
def delimFree (p : List Char) : Prop := ∀ c ∈ p, isDelim c = false

instance (p : List Char) : Decidable (delimFree p) := by
  unfold delimFree; infer_instance

/-- Joining segments with a single delimiter character, the inverse image of
the splitter used to state its specification. -/
def intercalateChars (d : Char) : List (List Char) → List Char
  | [] => []
  | [p] => p
  | p :: q :: rest => p ++ d :: intercalateChars d (q :: rest)

/-! ### Eligibility guards -/

/-- The cast-entry eligibility guard, identical in `printMovieCypher`,
`printPeopleCSV` and `printActorsCSV`:
`len(actor.Name) > 0 && len(actor.Birthday) > 4 && len(strings.Trim(safe(a.Name), "_")) > 0`.
Note that the sanitized-name test inspects the cast entry's name `a.Name`,
while the other two inspect the fetched person record. -/
def castEligible (actor : PersonType) (a : CastType) : Prop :=
  0 < actor.name.length ∧ 4 < actor.birthday.length ∧
    0 < (trimUnderscore (safe a.name)).length

instance (actor : PersonType) (a : CastType) : Decidable (castEligible actor a) := by
  unfold castEligible; infer_instance

/-- Model of `inList`: membership of an id in the per-movie dedup slice. -/
def inList (x : Int) (l : List Int) : Prop := x ∈ l

instance (x : Int) (l : List Int) : Decidable (inList x l) := by
  unfold inList; infer_instance

/-! ### Cypher output model (cineasts-cypher.go) -/

/-- One line of the Cypher output of `printMovieCypher` (and the two index
statements of `main`), carrying exactly the Printf arguments of the
corresponding line of the source. -/
inductive CypherLine where
  | mergeMovie (id : Int)
  | setMovieTitle (t : String)
  | setMovieRelease (y : Int)
  | setMovieVoteAverage (v : Rat)
  | setMovieTagline (t : String)
  | movieGenreLabel (g : String)
  | mergePerson (v : String) (id : Int)
  | setPersonName (v : String) (n : String)
  | setPersonBorn (v : String) (y : Int)
  | setPersonDied (v : String) (y : Int)
  | setActorLabel (v : String)
  | createActsIn (v : String)
  | setActRoles (v : String) (chars : String)
  | mergeActRoles (v : String) (chars : String)
  | setDirectorLabel (v : String)
  | createDirected (v : String)
  | returnMovieTitle
  | createIndexMovieTitle
  | createIndexPersonName
  deriving DecidableEq

/-- Body of one iteration of the cast loop of `printMovieCypher`
(lines 157-184): given the fetched person record, the cast entry and the
per-movie `actors` dedup slice, the emitted lines and the updated slice.
An unseen eligible person gets the node declaration, the `:Actor` label and
the `ACTS_IN` edge with its seeded roles list; a repeated person id gets the
roles-merge statement instead. -/
def castEntryLines (actor : PersonType) (a : CastType) (actors : List Int) :
    List CypherLine × List Int :=
  if castEligible actor a then
    if inList actor.id actors then
      ([.mergeActRoles (safe actor.name) (makeCharsString a.character)], actors)
    else
      ([CypherLine.mergePerson (safe actor.name) actor.id,
        .setPersonName (safe actor.name) actor.name] ++
       (if 0 < getBorn actor then [CypherLine.setPersonBorn (safe actor.name) (getBorn actor)] else []) ++
       (if 0 < getDied actor then [CypherLine.setPersonDied (safe actor.name) (getDied actor)] else []) ++
       [.setActorLabel (safe actor.name),
        .createActsIn (safe actor.name),
        .setActRoles (safe actor.name) (makeCharsString a.character)],
       actors ++ [actor.id])
  else ([], actors)

/-- Body of one iteration of the crew loop of `printMovieCypher`
(lines 188-208), reached only for entries with job "Director": the guard is
just that the sanitized crew name is nonempty; the person is declared if the
crew id is unseen, and the `:Director` label and `DIRECTED` edge are emitted
unconditionally under the name guard. The dedup slice is keyed by the crew
entry id `d.Id` here (not the fetched record's id). -/
def crewEntryLines (director : PersonType) (d : CrewType) (actors : List Int) :
    List CypherLine × List Int :=
  if 0 < (trimUnderscore (safe d.name)).length then
    let declPart :=
      if inList d.id actors then ([], actors)
      else
        ([CypherLine.mergePerson (safe director.name) director.id,
          .setPersonName (safe director.name) director.name] ++
         (if 0 < getBorn director then [CypherLine.setPersonBorn (safe director.name) (getBorn director)] else []) ++
         (if 0 < getDied director then [CypherLine.setPersonDied (safe director.name) (getDied director)] else []),
         actors ++ [d.id])
    (declPart.1 ++
      [CypherLine.setDirectorLabel (safe director.name),
       .createDirected (safe director.name)],
     declPart.2)
  else ([], actors)

/-- The cast loop of `printMovieCypher`, resolving each cast entry through
`getP` (the person resolver) and threading the `actors` slice. -/
def castLoop (getP : Int → PersonType) : List CastType → List Int →
    List CypherLine × List Int
  | [], actors => ([], actors)
  | a :: rest, actors =>
    let step := castEntryLines (getP a.id) a actors
    let r := castLoop getP rest step.2
    (step.1 ++ r.1, r.2)

/-- The crew loop of `printMovieCypher`: only entries with job "Director"
are resolved and processed. -/
def crewLoop (getP : Int → PersonType) : List CrewType → List Int →
    List CypherLine × List Int
  | [], actors => ([], actors)
  | d :: rest, actors =>
    if d.job = "Director" then
      let step := crewEntryLines (getP d.id) d actors
      let r := crewLoop getP rest step.2
      (step.1 ++ r.1, r.2)
    else crewLoop getP rest actors

/-- The movie-node header of `printMovieCypher` (lines 143-154): upsert by
id, title, release year (0 on parse failure, the error is only logged),
optional vote average and tagline, one label per genre. -/
def movieHeaderLines (m : MovieType) : List CypherLine :=
  [CypherLine.mergeMovie m.id,
   .setMovieTitle (quotes m.title),
   .setMovieRelease (atoi (strTake m.releaseDate 4))] ++
  (if 0 < m.voteAverage then [CypherLine.setMovieVoteAverage m.voteAverage] else []) ++
  (if 0 < m.tagline.length then [CypherLine.setMovieTagline (quotes m.tagline)] else []) ++
  m.genres.map (fun g => CypherLine.movieGenreLabel (safeWithReplace g.name ""))

/-- Model of `printMovieCypher`: nothing at all when the release-date string
is shorter than 4 characters, otherwise header, cast loop, crew loop (the
crew loop starts from the cast loop's dedup slice) and the terminator. -/
def printMovieCypher (getP : Int → PersonType) (m : MovieType) : List CypherLine :=
  if m.releaseDate.length < 4 then []
  else
    let c := castLoop getP m.casts.cast []
    let w := crewLoop getP m.casts.crew c.2
    movieHeaderLines m ++ c.1 ++ w.1 ++ [CypherLine.returnMovieTitle]

/-- The per-movie output unit of the Cypher variant as produced by
`discoverMovies` (lines 255-260): `printMovieCypher` is invoked only when
both the cast and the crew lists are nonempty. -/
def movieUnitCypher (getP : Int → PersonType) (m : MovieType) : List CypherLine :=
  if 0 < m.casts.cast.length ∧ 0 < m.casts.crew.length then printMovieCypher getP m
  else []

/-! ### CSV output model (cineasts-csv.go) -/

/-- A `people.csv` data record as built in both loops of `printPeopleCSV`:
id, name, birth year, death year. -/
def mkPeopleRow (p : PersonType) : List String :=
  [toString p.id, p.name, toString (getBorn p), toString (getDied p)]

/-- The cast loop of `printPeopleCSV` (lines 167-185): every cast entry is
resolved; an eligible person is written and marked seen only when its id is
not yet in the process-wide `personMap` (modelled as the list `pm`). -/
def peopleCastLoop (getP : Int → PersonType) : List CastType → List Int →
    List (List String) × List Int
  | [], pm => ([], pm)
  | a :: rest, pm =>
    let actor := getP a.id
    if castEligible actor a then
      if actor.id ∈ pm then peopleCastLoop getP rest pm
      else
        let r := peopleCastLoop getP rest (actor.id :: pm)
        (mkPeopleRow actor :: r.1, r.2)
    else peopleCastLoop getP rest pm

/-- The crew loop of `printPeopleCSV` (lines 186-204): every entry with job
"Director" is resolved and written when unseen — with no further
eligibility guard at all. -/
def peopleCrewLoop (getP : Int → PersonType) : List CrewType → List Int →
    List (List String) × List Int
  | [], pm => ([], pm)
  | d :: rest, pm =>
    if d.job = "Director" then
      let director := getP d.id
      if director.id ∈ pm then peopleCrewLoop getP rest pm
      else
        let r := peopleCrewLoop getP rest (director.id :: pm)
        (mkPeopleRow director :: r.1, r.2)
    else peopleCrewLoop getP rest pm

/-- Model of `printPeopleCSV`: nothing when the release date is shorter than
4 characters, otherwise cast loop followed by crew loop, threading the
process-wide seen-set. -/
def printPeopleCSV (getP : Int → PersonType) (m : MovieType) (pm : List Int) :
    List (List String) × List Int :=
  if m.releaseDate.length < 4 then ([], pm)
  else
    let c := peopleCastLoop getP m.casts.cast pm
    let w := peopleCrewLoop getP m.casts.crew c.2
    (c.1 ++ w.1, w.2)

/-- An `actors.csv` record (lines 214-217): person id, movie id,
colon-joined characters. -/
def mkActorRow (getP : Int → PersonType) (m : MovieType) (a : CastType) : List String :=
  [toString (getP a.id).id, toString m.id, makeCharsStringCSV a.character]

/-- The loop of `printActorsCSV`: one record per eligible cast entry,
no deduplication of any kind. -/
def actorsLoop (getP : Int → PersonType) (m : MovieType) : List CastType →
    List (List String)
  | [] => []
  | a :: rest =>
    if castEligible (getP a.id) a then mkActorRow getP m a :: actorsLoop getP m rest
    else actorsLoop getP m rest

/-- Model of `printActorsCSV`. -/
def printActorsCSV (getP : Int → PersonType) (m : MovieType) : List (List String) :=
  if m.releaseDate.length < 4 then [] else actorsLoop getP m m.casts.cast

/-- The loop of `printDirectorsCSV`: one record per crew entry with job
"Director", no deduplication. -/
def directorsLoop (getP : Int → PersonType) (m : MovieType) : List CrewType →
    List (List String)
  | [] => []
  | d :: rest =>
    if d.job = "Director" then
      [toString (getP d.id).id, toString m.id] :: directorsLoop getP m rest
    else directorsLoop getP m rest

/-- Model of `printDirectorsCSV`. -/
def printDirectorsCSV (getP : Int → PersonType) (m : MovieType) : List (List String) :=
  if m.releaseDate.length < 4 then [] else directorsLoop getP m m.casts.crew

/-- Rendering of the vote average for `movies.csv`; models Go `%f`
formatting of the float64 field, whose exact digits no claim depends on. -/
def fmtFloat (q : Rat) : String := toString q

/-- Model of `printMovieCSV` (lines 135-159): one record unless the release
date is shorter than 4 characters. -/
def printMovieCSV (m : MovieType) : List (List String) :=
  if m.releaseDate.length < 4 then []
  else
    [[toString m.id, m.title, fmtFloat m.voteAverage,
      toString (atoi (strTake m.releaseDate 4)), m.tagline,
      String.intercalate ":" (m.genres.map (fun g => g.name))]]

/-- The accumulated tables of a CSV run plus the final seen-set. -/
structure CsvRun where
  movies : List (List String)
  people : List (List String)
  actors : List (List String)
  directors : List (List String)
  pm : List Int
  deriving DecidableEq

/-- The per-movie output unit of the CSV variant as produced by
`discoverMovies` (lines 285-292): the four printers run in order only when
both cast and crew are nonempty. -/
def movieUnitCSV (getP : Int → PersonType) (m : MovieType) (pm : List Int) : CsvRun :=
  if 0 < m.casts.cast.length ∧ 0 < m.casts.crew.length then
    let pr := printPeopleCSV getP m pm
    ⟨printMovieCSV m, pr.1, printActorsCSV getP m, printDirectorsCSV getP m, pr.2⟩
  else ⟨[], [], [], [], pm⟩

/-- A full CSV run over the sequence of movies resolved across all discovery
pages, in order, threading the process-wide person seen-set. -/
def runCSV (getP : Int → PersonType) : List MovieType → List Int → CsvRun
  | [], pm => ⟨[], [], [], [], pm⟩
  | m :: rest, pm =>
    let u := movieUnitCSV getP m pm
    let r := runCSV getP rest u.pm
    ⟨u.movies ++ r.movies, u.people ++ r.people, u.actors ++ r.actors,
     u.directors ++ r.directors, r.pm⟩

/-! ### The paginator (`discoverMovies`) -/

/-- The sequence of page numbers requested by `discoverMovies` when every
discovery response reports the same total-page count `T`: the function
requests its argument page unconditionally, then recurses to the next page
while the current number is below the reported total (lines 249-264 of
cineasts-cypher.go, lines 279-297 of cineasts-csv.go). -/
def pagesRequested (T s : Int) : List Int :=
  if s < T then s :: pagesRequested T (s + 1) else [s]
  termination_by (T - s).toNat
  decreasing_by simp_wf; omega

/-! ### Denotation of the emitted roles statements -/

/-- Cypher semantics of the roles-merge statement emitted for a repeated
cast entry (line 181):
`SET r.roles = filter(x in r.roles where not(x in new)) + new` —
the old entries that reappear in the new list are dropped, then the new
list is appended. -/
def mergeRoles (old new : List String) : List String :=
  old.filter (fun x => !(decide (x ∈ new))) ++ new

/-- The roles list a repeated cast member ends with, given the character
fields of their occurrences in order: the first occurrence seeds the list
with its split character names (line 177), every later occurrence applies
the merge statement. -/
def rolesDenote : List String → List String
  | [] => []
  | c :: rest => rest.foldl (fun acc c2 => mergeRoles acc (splitTrim c2)) (splitTrim c)

/-- Recognizer for the `ACTS_IN` edge-creation statement. -/
def isActsInLine : CypherLine → Bool
  | .createActsIn _ => true
  | _ => false

/-- Recognizer for the roles-merge statement. -/
def isMergeRolesLine : CypherLine → Bool
  | .mergeActRoles _ _ => true
  | _ => false

/-! ### The response cache (`getCacheOrRequest`) and the full pipelines -/

/-- Prefix test on character lists (used by the file-name sanitizer). -/
def leadMatches : List Char → List Char → Bool
  | [], _ => true
  | _ :: _, [] => false
  | a :: as, b :: bs => a = b && leadMatches as bs

/-- Model of `getFileSafe`: regexp `/|<apikey>` replaced by `_`, scanning
left to right — every slash, and every occurrence of the api key, becomes a
single underscore. -/
def fileSafeAux (key : List Char) : List Char → List Char
  | [] => []
  | c :: cs =>
    if c = '/' then '_' :: fileSafeAux key cs
    else if h : key ≠ [] ∧ leadMatches key (c :: cs) then
      '_' :: fileSafeAux key (List.drop key.length (c :: cs))
    else c :: fileSafeAux key cs
  termination_by l => l.length
  decreasing_by
    all_goals simp_wf
    all_goals try omega
    all_goals
      have hk : 0 < key.length := List.length_pos.mpr h.1
      simp [List.length_drop]
      omega

def getFileSafe (apikey s : String) : String :=
  String.mk (fileSafeAux apikey.data s.data)

/-- A sequential program over the caching fetcher: it either returns a value
or requests the body of a URL through `getCacheOrRequest` and continues with
it. `β` is the type of cached response bodies. -/
inductive Prog (β : Type) (α : Type) where
  | pure (a : α)
  | getURL (url : String) (k : β → Prog β α)

/-- Monadic sequencing of such programs. -/
def Prog.bind {β α γ : Type} : Prog β α → (α → Prog β γ) → Prog β γ
  | .pure a, f => f a
  | .getURL u k, f => .getURL u (fun b => (k b).bind f)

/-- Result of interpreting a program: its value, the final cache contents,
and the list of URLs whose fetch branch was taken (cache misses). -/
structure RunResult (β α : Type) where
  out : α
  cache : String → Option β
  fetched : List String

/-- Interpreter of `Prog`, the model of `getCacheOrRequest` (lines 214-228):
the cache is a partial map keyed by the file-safe name `keyFn url`; a hit
returns the cached body, a miss consults the network `net`, stores the body
under the key and records the URL as fetched. -/
def runProg {β α : Type} (keyFn : String → String) (net : String → β) :
    Prog β α → (String → Option β) → RunResult β α
  | .pure a, cache => ⟨a, cache, []⟩
  | .getURL u k, cache =>
    match cache (keyFn u) with
    | some b => runProg keyFn net (k b) cache
    | none =>
      let b := net u
      let r := runProg keyFn net (k b) (fun x => if x = keyFn u then some b else cache x)
      ⟨r.out, r.cache, u :: r.fetched⟩

/-- The discovery-listing URL (lines 250-251). -/
def discoverURL (apikey : String) (votecount : Int) (page : Int) : String :=
  "http://api.themoviedb.org/3/discover/movie?page=" ++ toString page ++
    "&api_key=" ++ apikey ++ "&&vote_count.gte=" ++ toString votecount

/-- The movie-detail URL (line 241). -/
def movieURL (apikey : String) (id : Int) : String :=
  "http://api.themoviedb.org/3/movie/" ++ toString id ++ "?api_key=" ++ apikey ++
    "&append_to_response=casts"

/-- The person-detail URL (line 232). -/
def personURL (apikey : String) (id : Int) : String :=
  "http://api.themoviedb.org/3/person/" ++ toString id ++ "?api_key=" ++ apikey

/-- `getPerson`: fetch and decode a person record. The JSON decoding of
`encoding/json` is abstracted as the parameter `dP`. -/
def getPersonProg {β : Type} (apikey : String) (dP : β → PersonType) (id : Int) :
    Prog β PersonType :=
  .getURL (personURL apikey id) (fun b => .pure (dP b))

/-- `getMovie`: fetch and decode a movie record. -/
def getMovieProg {β : Type} (apikey : String) (dM : β → MovieType) (id : Int) :
    Prog β MovieType :=
  .getURL (movieURL apikey id) (fun b => .pure (dM b))

/-- The cast loop of `printMovieCypher` with its interleaved person
fetches. -/
def castLoopProg {β : Type} (apikey : String) (dP : β → PersonType) :
    List CastType → List Int → Prog β (List CypherLine × List Int)
  | [], actors => .pure ([], actors)
  | a :: rest, actors =>
    (getPersonProg apikey dP a.id).bind fun actor =>
      let step := castEntryLines actor a actors
      (castLoopProg apikey dP rest step.2).bind fun r =>
        .pure (step.1 ++ r.1, r.2)

/-- The crew loop of `printMovieCypher` with its person fetches (one per
entry with job "Director"). -/
def crewLoopProg {β : Type} (apikey : String) (dP : β → PersonType) :
    List CrewType → List Int → Prog β (List CypherLine × List Int)
  | [], actors => .pure ([], actors)
  | d :: rest, actors =>
    if d.job = "Director" then
      (getPersonProg apikey dP d.id).bind fun director =>
        let step := crewEntryLines director d actors
        (crewLoopProg apikey dP rest step.2).bind fun r =>
          .pure (step.1 ++ r.1, r.2)
    else crewLoopProg apikey dP rest actors

/-- `printMovieCypher` as a fetching program. -/
def printMovieCypherProg {β : Type} (apikey : String) (dP : β → PersonType)
    (m : MovieType) : Prog β (List CypherLine) :=
  if m.releaseDate.length < 4 then .pure []
  else
    (castLoopProg apikey dP m.casts.cast []).bind fun c =>
      (crewLoopProg apikey dP m.casts.crew c.2).bind fun w =>
        .pure (movieHeaderLines m ++ c.1 ++ w.1 ++ [CypherLine.returnMovieTitle])

/-- The per-page movie loop of the Cypher `discoverMovies`. -/
def moviesLoopCypherProg {β : Type} (apikey : String) (dM : β → MovieType)
    (dP : β → PersonType) : List MovieType → Prog β (List CypherLine)
  | [] => .pure []
  | mv :: rest =>
    (getMovieProg apikey dM mv.id).bind fun m =>
      (if 0 < m.casts.cast.length ∧ 0 < m.casts.crew.length
        then printMovieCypherProg apikey dP m
        else .pure []).bind fun ls =>
        (moviesLoopCypherProg apikey dM dP rest).bind fun ls2 =>
          .pure (ls ++ ls2)

/-- The Cypher `discoverMovies` recursion. The source recursion is bounded
only by the totals reported in the responses; `fuel` bounds the page
recursion so the model is total, and the results below hold for every
fuel. -/
def discoverCypherProg {β : Type} (apikey : String) (votecount : Int)
    (dPg : β → DiscoverPage) (dM : β → MovieType) (dP : β → PersonType) :
    Nat → Int → Prog β (List CypherLine)
  | fuel, pageNum =>
    .getURL (discoverURL apikey votecount pageNum) fun b =>
      let page := dPg b
      (moviesLoopCypherProg apikey dM dP page.results).bind fun ls =>
        if pageNum < page.totalPages then
          match fuel with
          | 0 => .pure ls
          | f + 1 =>
            (discoverCypherProg apikey votecount dPg dM dP f (pageNum + 1)).bind fun ls2 =>
              .pure (ls ++ ls2)
        else .pure ls

/-- `main` of cineasts-cypher.go: refuse to run on the placeholder api key,
otherwise emit the two index statements and walk the catalog from page 1.
(The usage text printed in the refusal case is not part of the Cypher
output.) -/
def cypherMainProg {β : Type} (apikey : String) (votecount : Int)
    (dPg : β → DiscoverPage) (dM : β → MovieType) (dP : β → PersonType)
    (fuel : Nat) : Prog β (List CypherLine) :=
  if apikey = ".." then .pure []
  else
    (discoverCypherProg apikey votecount dPg dM dP fuel 1).bind fun ls =>
      .pure ([CypherLine.createIndexMovieTitle, CypherLine.createIndexPersonName] ++ ls)

/-- The cast loop of `printPeopleCSV` with its person fetches. -/
def peopleCastLoopProg {β : Type} (apikey : String) (dP : β → PersonType) :
    List CastType → List Int → Prog β (List (List String) × List Int)
  | [], pm => .pure ([], pm)
  | a :: rest, pm =>
    (getPersonProg apikey dP a.id).bind fun actor =>
      if castEligible actor a then
        if actor.id ∈ pm then peopleCastLoopProg apikey dP rest pm
        else
          (peopleCastLoopProg apikey dP rest (actor.id :: pm)).bind fun r =>
            .pure (mkPeopleRow actor :: r.1, r.2)
      else peopleCastLoopProg apikey dP rest pm

/-- The crew loop of `printPeopleCSV` with its person fetches. -/
def peopleCrewLoopProg {β : Type} (apikey : String) (dP : β → PersonType) :
    List CrewType → List Int → Prog β (List (List String) × List Int)
  | [], pm => .pure ([], pm)
  | d :: rest, pm =>
    if d.job = "Director" then
      (getPersonProg apikey dP d.id).bind fun director =>
        if director.id ∈ pm then peopleCrewLoopProg apikey dP rest pm
        else
          (peopleCrewLoopProg apikey dP rest (director.id :: pm)).bind fun r =>
            .pure (mkPeopleRow director :: r.1, r.2)
    else peopleCrewLoopProg apikey dP rest pm

/-- `printPeopleCSV` as a fetching program. -/
def printPeopleCSVProg {β : Type} (apikey : String) (dP : β → PersonType)
    (m : MovieType) (pm : List Int) : Prog β (List (List String) × List Int) :=
  if m.releaseDate.length < 4 then .pure ([], pm)
  else
    (peopleCastLoopProg apikey dP m.casts.cast pm).bind fun c =>
      (peopleCrewLoopProg apikey dP m.casts.crew c.2).bind fun w =>
        .pure (c.1 ++ w.1, w.2)

/-- The loop of `printActorsCSV` with its person fetches (each loop of the
CSV variant re-resolves every person through the cache). -/
def actorsLoopProg {β : Type} (apikey : String) (dP : β → PersonType)
    (m : MovieType) : List CastType → Prog β (List (List String))
  | [] => .pure []
  | a :: rest =>
    (getPersonProg apikey dP a.id).bind fun actor =>
      (actorsLoopProg apikey dP m rest).bind fun r =>
        .pure ((if castEligible actor a
                then [[toString actor.id, toString m.id, makeCharsStringCSV a.character]]
                else []) ++ r)

/-- `printActorsCSV` as a fetching program. -/
def printActorsCSVProg {β : Type} (apikey : String) (dP : β → PersonType)
    (m : MovieType) : Prog β (List (List String)) :=
  if m.releaseDate.length < 4 then .pure []
  else actorsLoopProg apikey dP m m.casts.cast

/-- The loop of `printDirectorsCSV` with its person fetches. -/
def directorsLoopProg {β : Type} (apikey : String) (dP : β → PersonType)
    (m : MovieType) : List CrewType → Prog β (List (List String))
  | [] => .pure []
  | d :: rest =>
    if d.job = "Director" then
      (getPersonProg apikey dP d.id).bind fun director =>
        (directorsLoopProg apikey dP m rest).bind fun r =>
          .pure ([toString director.id, toString m.id] :: r)
    else directorsLoopProg apikey dP m rest

/-- `printDirectorsCSV` as a fetching program. -/
def printDirectorsCSVProg {β : Type} (apikey : String) (dP : β → PersonType)
    (m : MovieType) : Prog β (List (List String)) :=
  if m.releaseDate.length < 4 then .pure []
  else directorsLoopProg apikey dP m m.casts.crew

/-- The per-movie unit of the CSV `discoverMovies` loop: the four printers
run in order when the guard passes. -/
def movieUnitCSVProg {β : Type} (apikey : String) (dP : β → PersonType)
    (m : MovieType) (pm : List Int) : Prog β CsvRun :=
  if 0 < m.casts.cast.length ∧ 0 < m.casts.crew.length then
    (printPeopleCSVProg apikey dP m pm).bind fun pr =>
      (printActorsCSVProg apikey dP m).bind fun ar =>
        (printDirectorsCSVProg apikey dP m).bind fun dr =>
          .pure ⟨printMovieCSV m, pr.1, ar, dr, pr.2⟩
  else .pure ⟨[], [], [], [], pm⟩

/-- The per-page movie loop of the CSV `discoverMovies`. -/
def moviesLoopCSVProg {β : Type} (apikey : String) (dM : β → MovieType)
    (dP : β → PersonType) : List MovieType → List Int → Prog β CsvRun
  | [], pm => .pure ⟨[], [], [], [], pm⟩
  | mv :: rest, pm =>
    (getMovieProg apikey dM mv.id).bind fun m =>
      (movieUnitCSVProg apikey dP m pm).bind fun u =>
        (moviesLoopCSVProg apikey dM dP rest u.pm).bind fun r =>
          .pure ⟨u.movies ++ r.movies, u.people ++ r.people, u.actors ++ r.actors,
                 u.directors ++ r.directors, r.pm⟩

/-- The CSV `discoverMovies` recursion, fuel-bounded like the Cypher one. -/
def discoverCSVProg {β : Type} (apikey : String) (votecount : Int)
    (dPg : β → DiscoverPage) (dM : β → MovieType) (dP : β → PersonType) :
    Nat → Int → List Int → Prog β CsvRun
  | fuel, pageNum, pm =>
    .getURL (discoverURL apikey votecount pageNum) fun b =>
      let page := dPg b
      (moviesLoopCSVProg apikey dM dP page.results pm).bind fun r =>
        if pageNum < page.totalPages then
          match fuel with
          | 0 => .pure r
          | f + 1 =>
            (discoverCSVProg apikey votecount dPg dM dP f (pageNum + 1) r.pm).bind fun r2 =>
              .pure ⟨r.movies ++ r2.movies, r.people ++ r2.people, r.actors ++ r2.actors,
                     r.directors ++ r2.directors, r2.pm⟩
        else .pure r

/-- The CSV header rows written by `main` of cineasts-csv.go. -/
def csvHeaderMovies : List String := ["movieId", "title", "avgVote", "releaseYear", "tagline", "genres"]

def csvHeaderPeople : List String := ["personId", "name", "birthYear", "deathYear"]

def csvHeaderActors : List String := ["personId", "movieId", "characters"]

def csvHeaderDirectors : List String := ["personId", "movieId"]

/-- `main` of cineasts-csv.go: refuse to run on the placeholder api key,
otherwise write the four header rows and walk the catalog from page 1 with
an empty seen-set. -/
def csvMainProg {β : Type} (apikey : String) (votecount : Int)
    (dPg : β → DiscoverPage) (dM : β → MovieType) (dP : β → PersonType)
    (fuel : Nat) : Prog β CsvRun :=
  if apikey = ".." then .pure ⟨[], [], [], [], []⟩
  else
    (discoverCSVProg apikey votecount dPg dM dP fuel 1 []).bind fun r =>
      .pure ⟨csvHeaderMovies :: r.movies, csvHeaderPeople :: r.people,
             csvHeaderActors :: r.actors, csvHeaderDirectors :: r.directors, r.pm⟩

/-! ### Proof-support definitions -/

/-- Invariant of the `personMap` seen-set threading: the emitted people rows
are the rows of a list of person records whose ids are pairwise distinct,
none of which was seen before, all of which are seen afterwards, and the
seen-set only grows. -/
def PeopleInv (pm : List Int) (rows : List (List String)) (pm2 : List Int) : Prop :=
  ∃ recs : List PersonType,
    rows = recs.map mkPeopleRow ∧
    (recs.map PersonType.id).Nodup ∧
    (∀ r ∈ recs, r.id ∉ pm ∧ r.id ∈ pm2) ∧
    (∀ x ∈ pm, x ∈ pm2)

/-- Person resolver of the C1 counterexample: person 7 is a director whose
birth date is the empty string. -/
def g1 : Int → PersonType := fun i =>
  if i = 7 then ⟨7, "Bob", "", ""⟩ else ⟨1, "", "", ""⟩

/-- Movie of the C1 counterexample: exported (nonempty cast and crew,
4-character release date); its only cast entry is ineligible, its only crew
entry is a director. -/
def M1 : MovieType :=
  ⟨1, "M", "", "2000", [], ⟨[⟨1, "", ""⟩], [⟨7, "Bob", "Director"⟩]⟩, 0⟩

/-- Person resolver of the C1 witness: an eligible actress. -/
def g2 : Int → PersonType := fun i =>
  if i = 9 then ⟨9, "Ann", "1980-01-01", ""⟩ else ⟨7, "Bob", "1950-01-01", ""⟩

/-- Movie of the C1 witness. -/
def M2 : MovieType :=
  ⟨2, "N", "", "2001", [], ⟨[⟨9, "Ann", "X"⟩], [⟨7, "Bob", "Director"⟩]⟩, 0⟩

/-- Person resolver of the C5 counterexample. -/
def g5 : Int → PersonType := fun _ => ⟨5, "Eve", "1970-01-01", ""⟩

/-- Cast list of the C5 counterexample: the repeated entry's character field
contains the same name twice, separated by a slash. -/
def cast5 : List CastType := [⟨5, "Eve", "A"⟩, ⟨5, "Eve", "A / A"⟩]

/-- Person resolver of the C5 witness. -/
def g6 : Int → PersonType := fun _ => ⟨9, "Ann", "1980-01-01", ""⟩

/-- Cast list of the C5 witness: duplicate-free character fields. -/
def cast6 : List CastType := [⟨9, "Ann", "A"⟩, ⟨9, "Ann", "B / C"⟩]

/-- Person resolver of the C2 witness. -/
def g0 : Int → PersonType := fun _ => ⟨0, "", "", ""⟩

/-- Movie of the C2 witness: release date of length 2, nonempty cast and
crew. -/
def M19 : MovieType :=
  ⟨1, "t", "", "19", [], ⟨[⟨1, "a", "x"⟩], [⟨2, "b", "Director"⟩]⟩, 0⟩

/-! ## Theorems -/

/-! ### C7 — quoting round trip -/

theorem unescape_esc (cs : List Char) :
    unescapeChars (escQuote (escBackslash cs)) = some cs := by
  induction cs with
  | nil => rfl
  | cons c cs ih =>
    by_cases hb : c = '\\'
    · subst hb
      simp [escBackslash, escQuote, unescapeChars, ih]
    · by_cases hq : c = '"'
      · subst hq
        simp [escBackslash, escQuote, unescapeChars, ih]
      · rw [show escBackslash (c :: cs) = c :: escBackslash cs from by simp [escBackslash, hb]]
        rw [show escQuote (c :: escBackslash cs) = c :: escQuote (escBackslash cs) from by
          simp [escQuote, hq]]
        rw [unescapeChars.eq_def]
        simp [hb, ih]

/-- Claim C7: `quotes` escapes embedded backslashes before embedded double
quotes and wraps the result in double quotes, so that stripping the outer
quotes and undoing the escapes recovers exactly the input string; in
particular the inner quotes of `He said "hi"` survive the round trip. -/
theorem quotes_roundtrip :
    (∀ s : String, unquote (quotes s) = some s) ∧
      quotes "He said \"hi\"" = "\"He said \\\"hi\\\"\"" := by
  constructor
  · intro s
    have hq : quotes s = String.mk ('"' :: (escQuote (escBackslash s.data) ++ ['"'])) :=
      String.ext (by simp [quotes, String.data_append])
    rw [hq]
    rw [show unquote (String.mk ('"' :: (escQuote (escBackslash s.data) ++ ['"']))) =
        (if ('"' : Char) = '"' ∧ (escQuote (escBackslash s.data) ++ ['"']) ≠ [] ∧
            (escQuote (escBackslash s.data) ++ ['"']).getLast? = some '"'
         then (unescapeChars (escQuote (escBackslash s.data) ++ ['"']).dropLast).map String.mk
         else none) from rfl]
    rw [if_pos ⟨rfl, by simp, by simp [List.getLast?_concat]⟩]
    rw [List.dropLast_concat, unescape_esc]
    rfl
  · rfl

/-! ### C6 — birth/death year extraction -/

/-- Claim C6 (corrected): `getBorn`/`getDied` parse the first 4 characters of
the date field as the year only when the field has MORE than 4 characters
(at least 5); a field of length 4 or less (including the absent field `""`)
yields the sentinel 0, and malformed input never raises — `atoi` returns 0
on any parse failure. -/
theorem getBorn_getDied_spec (p : PersonType) :
    (4 < p.birthday.length → getBorn p = atoi (strTake p.birthday 4)) ∧
    (p.birthday.length ≤ 4 → getBorn p = 0) ∧
    (4 < p.deathday.length → getDied p = atoi (strTake p.deathday 4)) ∧
    (p.deathday.length ≤ 4 → getDied p = 0) := by
  refine ⟨fun h => ?_, fun h => ?_, fun h => ?_, fun h => ?_⟩
  · rw [getBorn, if_pos h]
  · rw [getBorn, if_neg (by omega)]
  · rw [getDied, if_pos h]
  · rw [getDied, if_neg (by omega)]

/-- Counterexample to claim C6 as stated: the birth date `"1980"` has
exactly 4 characters, its first 4 characters parse to the year 1980, yet
`getBorn` returns 0 because the code requires strictly more than 4
characters. -/
theorem getBorn_counterexample :
    getBorn ⟨1, "x", "1980", ""⟩ = 0 ∧ ("1980" : String).length = 4 ∧
      atoi (strTake "1980" 4) = 1980 := by
  refine ⟨?_, by decide, by decide⟩
  decide

theorem getBorn_getDied_spec_witness :
    getBorn ⟨1, "x", "1980-01-01", "19"⟩ = atoi (strTake "1980-01-01" 4) ∧
      getDied ⟨1, "x", "1980-01-01", "19"⟩ = 0 :=
  ⟨(getBorn_getDied_spec ⟨1, "x", "1980-01-01", "19"⟩).1 (by decide),
   (getBorn_getDied_spec ⟨1, "x", "1980-01-01", "19"⟩).2.2.2 (by decide)⟩

/-! ### C8 / C10 — the character-list splitter -/

theorem splitFirst_of_delimFree (cs : List Char) (h : delimFree cs) :
    splitFirst cs = none := by
  induction cs with
  | nil => rfl
  | cons c cs ih =>
    have hc : isDelim c = false := h c (by simp)
    have hrest : delimFree cs := fun x hx => h x (by simp [hx])
    simp [splitFirst, hc, ih hrest]

theorem splitFirst_append (p rest : List Char) (d : Char) (hp : delimFree p)
    (hd : isDelim d = true) : splitFirst (p ++ d :: rest) = some (p, rest) := by
  induction p with
  | nil => simp [splitFirst, hd]
  | cons c cs ih =>
    have hc : isDelim c = false := hp c (by simp)
    have hrest : delimFree cs := fun x hx => hp x (by simp [hx])
    simp [splitFirst, hc, ih hrest]

theorem splitCapped_intercalate (ps : List (List Char)) :
    ∀ n, ps ≠ [] → ps.length ≤ n → (∀ p ∈ ps, delimFree p) →
      splitCapped n (intercalateChars '/' ps) = ps := by
  induction ps with
  | nil => intro n h; exact absurd rfl h
  | cons p ps ih =>
    intro n _ hlen hfree
    cases ps with
    | nil =>
      match n, hlen with
      | 1, _ => simp [intercalateChars, splitCapped]
      | m + 2, _ =>
        simp [intercalateChars, splitCapped,
          splitFirst_of_delimFree p (hfree p (by simp))]
    | cons q qs =>
      have hn : ∃ m, n = m + 2 := ⟨n - 2, by simp at hlen; omega⟩
      obtain ⟨m, rfl⟩ := hn
      have hip : intercalateChars '/' (p :: q :: qs) =
          p ++ '/' :: intercalateChars '/' (q :: qs) := rfl
      rw [hip]
      have hsf := splitFirst_append p (intercalateChars '/' (q :: qs)) '/'
        (hfree p (by simp)) (by decide)
      rw [show splitCapped (m + 2) (p ++ '/' :: intercalateChars '/' (q :: qs)) =
          (match splitFirst (p ++ '/' :: intercalateChars '/' (q :: qs)) with
            | none => [p ++ '/' :: intercalateChars '/' (q :: qs)]
            | some pq => pq.1 :: splitCapped (m + 1) pq.2) from rfl]
      rw [hsf]
      have : splitCapped (m + 1) (intercalateChars '/' (q :: qs)) = q :: qs :=
        ih (m + 1) (by simp) (by simp at hlen ⊢; omega)
          (fun x hx => hfree x (by simp at hx ⊢; tauto))
      simp [this]

theorem splitCapped_intercalate_cap (n : Nat) :
    ∀ ps : List (List Char), 1 ≤ n → n ≤ ps.length → (∀ p ∈ ps, delimFree p) →
      splitCapped n (intercalateChars '/' ps) =
        ps.take (n - 1) ++ [intercalateChars '/' (ps.drop (n - 1))] := by
  induction n with
  | zero => intro ps h; omega
  | succ n ih =>
    intro ps h1 hlen hfree
    cases n with
    | zero => simp [splitCapped]
    | succ m =>
      cases ps with
      | nil => simp at hlen
      | cons p ps =>
        cases ps with
        | nil => simp at hlen
        | cons q qs =>
          have hip : intercalateChars '/' (p :: q :: qs) =
              p ++ '/' :: intercalateChars '/' (q :: qs) := rfl
          rw [hip]
          have hsf := splitFirst_append p (intercalateChars '/' (q :: qs)) '/'
            (hfree p (by simp)) (by decide)
          rw [show splitCapped (m + 2) (p ++ '/' :: intercalateChars '/' (q :: qs)) =
              (match splitFirst (p ++ '/' :: intercalateChars '/' (q :: qs)) with
                | none => [p ++ '/' :: intercalateChars '/' (q :: qs)]
                | some pq => pq.1 :: splitCapped (m + 1) pq.2) from rfl]
          rw [hsf]
          have hrec := ih (q :: qs) (by omega) (by simp at hlen ⊢; omega)
            (fun x hx => hfree x (by simp at hx ⊢; tauto))
          simp only [hrec]
          simp [List.take, List.drop]

theorem splitCapped_length (n : Nat) : ∀ cs, (splitCapped n cs).length ≤ n := by
  induction n using Nat.strong_induction_on with
  | _ n ih =>
    intro cs
    match n with
    | 0 => simp [splitCapped]
    | 1 => simp [splitCapped]
    | m + 2 =>
      cases hs : splitFirst cs with
      | none => simp [splitCapped, hs]
      | some pq =>
        simp only [splitCapped, hs, List.length_cons]
        have := ih (m + 1) (by omega) pq.2
        omega

/-- Claim C8: the character-field splitter of `makeCharsString` splits on
the slash delimiters, trims surrounding whitespace from each part and
preserves order: on a joined list of at most 100 delimiter-free segments it
returns exactly those segments, trimmed, in order; in particular
`"Big Momma / Malcolm Turner"` yields `["Big Momma", "Malcolm Turner"]`. -/
theorem splitTrim_spec (ps : List (List Char))
    (h1 : ps ≠ []) (h2 : ps.length ≤ 100) (h3 : ∀ p ∈ ps, delimFree p) :
    splitTrim (String.mk (intercalateChars '/' ps)) =
      ps.map (fun cs => trimSpace (String.mk cs)) ∧
    splitTrim "Big Momma / Malcolm Turner" = ["Big Momma", "Malcolm Turner"] := by
  constructor
  · unfold splitTrim
    rw [show (String.mk (intercalateChars '/' ps)).data = intercalateChars '/' ps from rfl]
    rw [splitCapped_intercalate ps 100 h1 h2 h3]
  · decide

theorem splitTrim_spec_witness :
    splitTrim (String.mk (intercalateChars '/' ["Big Momma ".data, " Malcolm Turner".data])) =
      ["Big Momma ".data, " Malcolm Turner".data].map (fun cs => trimSpace (String.mk cs)) :=
  (splitTrim_spec ["Big Momma ".data, " Malcolm Turner".data]
    (by decide) (by decide) (by decide)).1

/-- Claim C10: the split of `makeCharsString` is capped at 100 substrings,
and on an input of 100 or more delimiter-separated segments the 100th part
keeps the remainder of the string unsplit, delimiters included. -/
theorem splitCapped_cap_spec (s : String) (ps : List (List Char))
    (h1 : ∀ p ∈ ps, delimFree p) (h2 : 100 ≤ ps.length) :
    (splitTrim s).length ≤ 100 ∧
      splitCapped 100 (intercalateChars '/' ps) =
        ps.take 99 ++ [intercalateChars '/' (ps.drop 99)] := by
  constructor
  · unfold splitTrim
    simpa using splitCapped_length 100 s.data
  · simpa using splitCapped_intercalate_cap 100 ps (by omega) h2 h1

theorem splitCapped_cap_spec_witness :
    splitCapped 100 (intercalateChars '/' (List.replicate 100 (['a'] : List Char))) =
      (List.replicate 100 (['a'] : List Char)).take 99 ++
        [intercalateChars '/' ((List.replicate 100 (['a'] : List Char)).drop 99)] :=
  (splitCapped_cap_spec "" (List.replicate 100 (['a'] : List Char))
    (by decide) (by decide)).2

/-! ### C4 — pagination -/

theorem pagesRequested_eq_range (T : Int) :
    ∀ (n : Nat) (s : Int), s ≤ T → (T - s).toNat = n →
      pagesRequested T s = (List.range (T - s + 1).toNat).map (fun i : Nat => s + (i : Int)) := by
  intro n
  induction n using Nat.strong_induction_on with
  | _ n ih =>
    intro s hs hn
    by_cases h : s < T
    · rw [pagesRequested, if_pos h]
      rw [ih (T - (s + 1)).toNat (by omega) (s + 1) (by omega) rfl]
      have e1 : (T - s + 1).toNat = (T - s).toNat + 1 := by omega
      have e2 : (T - (s + 1) + 1).toNat = (T - s).toNat := by omega
      rw [e1, e2, List.range_succ_eq_map]
      simp only [List.map_cons, List.map_map]
      refine congrArg₂ List.cons (by simp) ?_
      apply List.map_congr_left
      intro i _
      try simp only [Function.comp_apply]
      push_cast
      ring
    · have hst : s = T := le_antisymm hs (not_lt.mp h)
      subst hst
      rw [pagesRequested, if_neg (by omega)]
      have : (s - s + 1).toNat = 1 := by omega
      rw [this]
      simp [List.range_succ]

/-- Claim C4 (corrected): when every discovery response reports the same
total-page count `T` and the start page lies in `1..T`, the paginator
requests exactly the pages `startPage, startPage+1, ..., T` in order,
terminating exactly when the page number reaches `T` and never requesting a
page beyond `T`. (When the start page exceeds `T`, the code still requests
that single out-of-range page — see the counterexample.) -/
theorem pagesRequested_spec (T s : Int) (h1 : 1 ≤ s) (h2 : s ≤ T) :
    pagesRequested T s = (List.range (T - s + 1).toNat).map (fun i : Nat => s + (i : Int)) ∧
      ∀ p ∈ pagesRequested T s, p ≤ T := by
  have he := pagesRequested_eq_range T (T - s).toNat s h2 rfl
  refine ⟨he, ?_⟩
  intro p hp
  rw [he] at hp
  simp only [List.mem_map, List.mem_range] at hp
  obtain ⟨i, hi, rfl⟩ := hp
  have h4 : (i : Int) < ((T - s + 1).toNat : Int) := by exact_mod_cast hi
  omega

/-- Counterexample to claim C4 as stated: started at page 5 with a reported
total of 3 pages, `discoverMovies` still requests page 5, which exceeds the
reported total-page count. -/
theorem pagesRequested_counterexample :
    pagesRequested 3 5 = [5] ∧ (3 : Int) < 5 := by
  constructor
  · rw [pagesRequested]
    norm_num
  · norm_num

theorem pagesRequested_spec_witness :
    pagesRequested 3 1 = (List.range ((3 : Int) - 1 + 1).toNat).map (fun i : Nat => 1 + (i : Int)) :=
  (pagesRequested_spec 3 1 (by norm_num) (by norm_num)).1

/-! ### C2 — movie exclusion -/

/-- Claim C2: a movie whose release-date string has fewer than 4 characters,
or whose cast list is empty, or whose crew list is empty, contributes no
output unit in either variant: no Cypher statement block and no data row in
movies.csv, people.csv, actors.csv or directors.csv (and the person
seen-set is left unchanged). -/
theorem movieExclusion (getP : Int → PersonType) (m : MovieType) (pm : List Int)
    (h : m.releaseDate.length < 4 ∨ m.casts.cast = [] ∨ m.casts.crew = []) :
    movieUnitCypher getP m = [] ∧
    (movieUnitCSV getP m pm).movies = [] ∧
    (movieUnitCSV getP m pm).people = [] ∧
    (movieUnitCSV getP m pm).actors = [] ∧
    (movieUnitCSV getP m pm).directors = [] ∧
    (movieUnitCSV getP m pm).pm = pm := by
  rcases h with h | h | h
  · refine ⟨?_, ?_⟩
    · rw [movieUnitCypher]
      split
      · rw [printMovieCypher, if_pos h]
      · rfl
    · rw [movieUnitCSV]
      split
      · simp [printMovieCSV, printPeopleCSV, printActorsCSV, printDirectorsCSV, h]
      · simp
  · rw [movieUnitCypher, movieUnitCSV]
    rw [if_neg (by simp [h]), if_neg (by simp [h])]
    simp
  · rw [movieUnitCypher, movieUnitCSV]
    rw [if_neg (by simp [h]), if_neg (by simp [h])]
    simp

theorem movieExclusion_witness :
    movieUnitCypher g0 M19 = [] ∧
    (movieUnitCSV g0 M19 []).movies = [] ∧
    (movieUnitCSV g0 M19 []).people = [] ∧
    (movieUnitCSV g0 M19 []).actors = [] ∧
    (movieUnitCSV g0 M19 []).directors = [] ∧
    (movieUnitCSV g0 M19 []).pm = [] :=
  movieExclusion g0 M19 [] (Or.inl (by decide))

/-! ### C1 — person eligibility -/

theorem castEntryLines_actorLabel (actor : PersonType) (a : CastType)
    (actors : List Int) (v : String)
    (h : CypherLine.setActorLabel v ∈ (castEntryLines actor a actors).1) :
    castEligible actor a ∧ v = safe actor.name := by
  by_cases he : castEligible actor a
  · refine ⟨he, ?_⟩
    by_cases hm : inList actor.id actors
    · simp [castEntryLines, he, hm] at h
    · simp only [castEntryLines, if_pos he, if_neg hm] at h
      split_ifs at h <;> simp_all
  · simp [castEntryLines, he] at h

theorem castLoop_actorLabel (getP : Int → PersonType) :
    ∀ (cs : List CastType) (actors : List Int) (v : String),
      CypherLine.setActorLabel v ∈ (castLoop getP cs actors).1 →
      ∃ a ∈ cs, v = safe (getP a.id).name ∧ castEligible (getP a.id) a := by
  intro cs
  induction cs with
  | nil => intro actors v h; simp [castLoop] at h
  | cons a rest ih =>
    intro actors v h
    simp only [castLoop, List.mem_append] at h
    rcases h with h | h
    · obtain ⟨he, hv⟩ := castEntryLines_actorLabel _ _ _ _ h
      exact ⟨a, by simp, hv, he⟩
    · obtain ⟨b, hb, hv, he⟩ := ih _ _ h
      exact ⟨b, by simp [hb], hv, he⟩

theorem crewEntryLines_no_actorLabel (director : PersonType) (d : CrewType)
    (actors : List Int) (v : String) :
    CypherLine.setActorLabel v ∉ (crewEntryLines director d actors).1 := by
  intro h
  unfold crewEntryLines at h
  split_ifs at h <;> simp_all

theorem crewLoop_no_actorLabel (getP : Int → PersonType) :
    ∀ (ds : List CrewType) (actors : List Int) (v : String),
      CypherLine.setActorLabel v ∉ (crewLoop getP ds actors).1 := by
  intro ds
  induction ds with
  | nil => intro actors v h; simp [crewLoop] at h
  | cons d rest ih =>
    intro actors v h
    by_cases hj : d.job = "Director"
    · simp only [crewLoop, if_pos hj, List.mem_append] at h
      rcases h with h | h
      · exact crewEntryLines_no_actorLabel _ _ _ _ h
      · exact ih _ _ h
    · rw [crewLoop, if_neg hj] at h
      exact ih _ _ h

theorem movieHeaderLines_no_actorLabel (m : MovieType) (v : String) :
    CypherLine.setActorLabel v ∉ movieHeaderLines m := by
  intro h
  unfold movieHeaderLines at h
  split_ifs at h <;> simp_all

theorem castEntryLines_no_directorLabel (actor : PersonType) (a : CastType)
    (actors : List Int) (v : String) :
    CypherLine.setDirectorLabel v ∉ (castEntryLines actor a actors).1 := by
  intro h
  unfold castEntryLines at h
  split_ifs at h <;> simp_all

theorem castLoop_no_directorLabel (getP : Int → PersonType) :
    ∀ (cs : List CastType) (actors : List Int) (v : String),
      CypherLine.setDirectorLabel v ∉ (castLoop getP cs actors).1 := by
  intro cs
  induction cs with
  | nil => intro actors v h; simp [castLoop] at h
  | cons a rest ih =>
    intro actors v h
    simp only [castLoop, List.mem_append] at h
    rcases h with h | h
    · exact castEntryLines_no_directorLabel _ _ _ _ h
    · exact ih _ _ h

theorem crewEntryLines_directorLabel (director : PersonType) (d : CrewType)
    (actors : List Int) (v : String)
    (h : CypherLine.setDirectorLabel v ∈ (crewEntryLines director d actors).1) :
    0 < (trimUnderscore (safe d.name)).length ∧ v = safe director.name := by
  by_cases hn : 0 < (trimUnderscore (safe d.name)).length
  · refine ⟨hn, ?_⟩
    unfold crewEntryLines at h
    rw [if_pos hn] at h
    split_ifs at h <;> simp_all
  · unfold crewEntryLines at h
    rw [if_neg hn] at h
    simp at h

theorem crewLoop_directorLabel (getP : Int → PersonType) :
    ∀ (ds : List CrewType) (actors : List Int) (v : String),
      CypherLine.setDirectorLabel v ∈ (crewLoop getP ds actors).1 →
      ∃ d ∈ ds, d.job = "Director" ∧ v = safe (getP d.id).name ∧
        0 < (trimUnderscore (safe d.name)).length := by
  intro ds
  induction ds with
  | nil => intro actors v h; simp [crewLoop] at h
  | cons d rest ih =>
    intro actors v h
    by_cases hj : d.job = "Director"
    · simp only [crewLoop, if_pos hj, List.mem_append] at h
      rcases h with h | h
      · obtain ⟨hn, hv⟩ := crewEntryLines_directorLabel _ _ _ _ h
        exact ⟨d, by simp, hj, hv, hn⟩
      · obtain ⟨e, hb, hv, he⟩ := ih _ _ h
        exact ⟨e, by simp [hb], hv, he⟩
    · rw [crewLoop, if_neg hj] at h
      obtain ⟨e, hb, hv, he⟩ := ih _ _ h
      exact ⟨e, by simp [hb], hv, he⟩

theorem movieHeaderLines_no_directorLabel (m : MovieType) (v : String) :
    CypherLine.setDirectorLabel v ∉ movieHeaderLines m := by
  intro h
  unfold movieHeaderLines at h
  split_ifs at h <;> simp_all

theorem peopleCastLoop_mem (getP : Int → PersonType) :
    ∀ (cs : List CastType) (pm : List Int) (row : List String),
      row ∈ (peopleCastLoop getP cs pm).1 →
      ∃ a ∈ cs, row = mkPeopleRow (getP a.id) ∧ castEligible (getP a.id) a := by
  intro cs
  induction cs with
  | nil => intro pm row h; simp [peopleCastLoop] at h
  | cons a rest ih =>
    intro pm row h
    by_cases he : castEligible (getP a.id) a
    · by_cases hm : (getP a.id).id ∈ pm
      · rw [peopleCastLoop, if_pos he, if_pos hm] at h
        obtain ⟨b, hb, hv, hbe⟩ := ih _ _ h
        exact ⟨b, by simp [hb], hv, hbe⟩
      · rw [peopleCastLoop, if_pos he, if_neg hm] at h
        simp only [List.mem_cons] at h
        rcases h with h | h
        · exact ⟨a, by simp, h, he⟩
        · obtain ⟨b, hb, hv, hbe⟩ := ih _ _ h
          exact ⟨b, by simp [hb], hv, hbe⟩
    · rw [peopleCastLoop, if_neg he] at h
      obtain ⟨b, hb, hv, hbe⟩ := ih _ _ h
      exact ⟨b, by simp [hb], hv, hbe⟩

/-- Claim C1 (corrected): the eligibility invariant — person-record name
nonempty, birth date longer than 4 characters (hence at least 4), sanitized
cast-entry name nonempty — governs only the `:Actor` label of the Cypher
output and the cast-loop emission into people.csv. The `:Director` label is
emitted under the sanitized-crew-name guard alone, with no birth-date
condition, and the crew loop of `printPeopleCSV` emits directors into
people.csv with no eligibility guard at all (see the counterexample). -/
theorem personEligibility :
    (∀ (getP : Int → PersonType) (m : MovieType) (v : String),
        CypherLine.setActorLabel v ∈ movieUnitCypher getP m →
        ∃ a ∈ m.casts.cast, v = safe (getP a.id).name ∧ castEligible (getP a.id) a) ∧
    (∀ (getP : Int → PersonType) (m : MovieType) (v : String),
        CypherLine.setDirectorLabel v ∈ movieUnitCypher getP m →
        ∃ d ∈ m.casts.crew, d.job = "Director" ∧ v = safe (getP d.id).name ∧
          0 < (trimUnderscore (safe d.name)).length) ∧
    (∀ (getP : Int → PersonType) (cs : List CastType) (pm : List Int) (row : List String),
        row ∈ (peopleCastLoop getP cs pm).1 →
        ∃ a ∈ cs, row = mkPeopleRow (getP a.id) ∧ castEligible (getP a.id) a) := by
  refine ⟨?_, ?_, peopleCastLoop_mem⟩
  · intro getP m v h
    rw [movieUnitCypher] at h
    split at h
    · rw [printMovieCypher] at h
      split at h
      · simp at h
      · simp only [List.mem_append] at h
        rcases h with ((h | h) | h) | h
        · exact absurd h (movieHeaderLines_no_actorLabel m v)
        · exact castLoop_actorLabel getP _ _ _ h
        · exact absurd h (crewLoop_no_actorLabel getP _ _ _)
        · simp at h
    · simp at h
  · intro getP m v h
    rw [movieUnitCypher] at h
    split at h
    · rw [printMovieCypher] at h
      split at h
      · simp at h
      · simp only [List.mem_append] at h
        rcases h with ((h | h) | h) | h
        · exact absurd h (movieHeaderLines_no_directorLabel m v)
        · exact absurd h (castLoop_no_directorLabel getP _ _ _)
        · exact crewLoop_directorLabel getP _ _ _ h
        · simp at h
    · simp at h

/-- Counterexample to claim C1 as stated: movie `M1` is exported (nonempty
cast and crew, valid release date), person 7 has birth date `""`, yet the
Cypher output grants them the `:Director` label and the CSV variant emits
them into people.csv. -/
theorem personEligibility_counterexample :
    CypherLine.setDirectorLabel "Bob" ∈ movieUnitCypher g1 M1 ∧
    (g1 7).birthday = "" ∧
    (printPeopleCSV g1 M1 []).1 = [["7", "Bob", "0", "0"]] := by
  refine ⟨by decide, by decide, by decide⟩

theorem personEligibility_witness :
    ∃ a ∈ M2.casts.cast, "Ann" = safe (g2 a.id).name ∧ castEligible (g2 a.id) a :=
  personEligibility.1 g2 M2 "Ann" (by decide)

/-! ### C5 — roles merge for repeated cast entries -/

theorem castLoop_seen (getP : Int → PersonType) (p : Int) :
    ∀ (cs : List CastType) (actors : List Int),
      (∀ a ∈ cs, (getP a.id).id = p ∧ castEligible (getP a.id) a) → p ∈ actors →
      castLoop getP cs actors =
        (cs.map (fun a =>
          CypherLine.mergeActRoles (safe (getP a.id).name) (makeCharsString a.character)),
         actors) := by
  intro cs
  induction cs with
  | nil => intro actors _ _; simp [castLoop]
  | cons a rest ih =>
    intro actors hall hp
    have ha := hall a (by simp)
    have hstep : castEntryLines (getP a.id) a actors =
        ([CypherLine.mergeActRoles (safe (getP a.id).name) (makeCharsString a.character)],
         actors) := by
      rw [castEntryLines, if_pos ha.2, if_pos (show inList (getP a.id).id actors from ha.1 ▸ hp)]
    rw [castLoop, hstep, ih actors (fun b hb => hall b (by simp [hb])) hp]
    simp

theorem mergeRoles_nodup (old new : List String) (h1 : old.Nodup) (h2 : new.Nodup) :
    (mergeRoles old new).Nodup := by
  unfold mergeRoles
  refine List.Nodup.append (h1.filter _) h2 ?_
  intro x hx hxn
  simp only [List.mem_filter] at hx
  simp_all

theorem mergeRoles_toFinset (old new : List String) :
    (mergeRoles old new).toFinset = old.toFinset ∪ new.toFinset := by
  ext x
  simp only [mergeRoles, List.toFinset_append, Finset.mem_union, List.mem_toFinset,
    List.mem_filter]
  by_cases hx : x ∈ new <;> simp [hx]

theorem rolesFold_spec (rest : List String) :
    ∀ seed : List String, seed.Nodup → (∀ c ∈ rest, (splitTrim c).Nodup) →
      (rest.foldl (fun acc c => mergeRoles acc (splitTrim c)) seed).Nodup ∧
      (rest.foldl (fun acc c => mergeRoles acc (splitTrim c)) seed).toFinset =
        rest.foldl (fun s c => s ∪ (splitTrim c).toFinset) seed.toFinset := by
  induction rest with
  | nil => intro seed hs _; exact ⟨hs, rfl⟩
  | cons c rest ih =>
    intro seed hs hall
    have h1 : (mergeRoles seed (splitTrim c)).Nodup :=
      mergeRoles_nodup _ _ hs (hall c (by simp))
    have h2 := ih (mergeRoles seed (splitTrim c)) h1 (fun x hx => hall x (by simp [hx]))
    refine ⟨h2.1, ?_⟩
    simp only [List.foldl_cons]
    rw [h2.2, mergeRoles_toFinset]

/-- Claim C5 (corrected): for a cast list whose entries all resolve to the
same eligible person, starting from an empty per-movie dedup slice, only
the first occurrence emits an `ACTS_IN` edge-creation statement and every
later occurrence emits a roles-merge statement; PROVIDED each occurrence's
split character list has no internal duplicates, the denotation of those
statements is a duplicate-free roles list whose elements are the union of
all the occurrences' character-name sets. (Without that proviso the list
can contain duplicates — see the counterexample.) -/
theorem rolesMerge_spec (getP : Int → PersonType) (p : Int) (cs : List CastType)
    (h1 : cs ≠ [])
    (h2 : ∀ a ∈ cs, (getP a.id).id = p ∧ castEligible (getP a.id) a)
    (h3 : ∀ a ∈ cs, (splitTrim a.character).Nodup) :
    (castLoop getP cs []).1.countP isActsInLine = 1 ∧
    (castLoop getP cs []).1.countP isMergeRolesLine = cs.length - 1 ∧
    (rolesDenote (cs.map CastType.character)).Nodup ∧
    (rolesDenote (cs.map CastType.character)).toFinset =
      cs.foldl (fun s a => s ∪ (splitTrim a.character).toFinset) ∅ := by
  obtain ⟨a, rest, rfl⟩ : ∃ a rest, cs = a :: rest := by
    cases cs with
    | nil => exact absurd rfl h1
    | cons a rest => exact ⟨a, rest, rfl⟩
  have ha := h2 a (by simp)
  have hstep : castEntryLines (getP a.id) a [] =
      ([CypherLine.mergePerson (safe (getP a.id).name) (getP a.id).id,
        .setPersonName (safe (getP a.id).name) (getP a.id).name] ++
       (if 0 < getBorn (getP a.id)
        then [CypherLine.setPersonBorn (safe (getP a.id).name) (getBorn (getP a.id))] else []) ++
       (if 0 < getDied (getP a.id)
        then [CypherLine.setPersonDied (safe (getP a.id).name) (getDied (getP a.id))] else []) ++
       [.setActorLabel (safe (getP a.id).name),
        .createActsIn (safe (getP a.id).name),
        .setActRoles (safe (getP a.id).name) (makeCharsString a.character)],
       [(getP a.id).id]) := by
    rw [castEntryLines, if_pos ha.2, if_neg (show ¬ inList (getP a.id).id [] by simp [inList])]
    rfl
  have hrest := castLoop_seen getP p rest [(getP a.id).id]
    (fun b hb => h2 b (by simp [hb])) (by simp [ha.1])
  have hout : (castLoop getP (a :: rest) []).1 =
      (castEntryLines (getP a.id) a []).1 ++ (castLoop getP rest (castEntryLines (getP a.id) a []).2).1 := by
    rw [castLoop]
  refine ⟨?_, ?_, ?_, ?_⟩
  · rw [hout, hstep]
    simp only [hrest]
    rw [List.countP_append]
    rw [List.countP_append, List.countP_append]
    split_ifs <;>
      simp [isActsInLine, List.countP_cons, List.countP_nil, List.countP_map, Function.comp]
  · rw [hout, hstep]
    simp only [hrest]
    rw [List.countP_append]
    rw [List.countP_append, List.countP_append]
    split_ifs <;>
      simp [isMergeRolesLine, List.countP_cons, List.countP_nil, List.countP_map, Function.comp]
  · rw [List.map_cons, rolesDenote]
    exact (rolesFold_spec _ _ (h3 a (by simp))
      (fun c hc => by
        simp only [List.mem_map] at hc
        obtain ⟨b, hb, rfl⟩ := hc
        exact h3 b (by simp [hb]))).1
  · rw [List.map_cons, rolesDenote]
    have := (rolesFold_spec (rest.map CastType.character) (splitTrim a.character)
      (h3 a (by simp))
      (fun c hc => by
        simp only [List.mem_map] at hc
        obtain ⟨b, hb, rfl⟩ := hc
        exact h3 b (by simp [hb]))).2
    rw [this]
    rw [List.foldl_cons, List.foldl_map]
    simp

/-- Counterexample to claim C5 as stated: person 5 appears twice in `cast5`,
the second time with character field `"A / A"`. Only one `ACTS_IN` creation
is emitted and a merge statement follows, but the resulting roles list is
`["A", "A"]` — the merge is not duplicate-free when one character field
itself contains a repeated name. -/
theorem rolesMerge_counterexample :
    (castLoop g5 cast5 []).1.countP isActsInLine = 1 ∧
    CypherLine.mergeActRoles "Eve" (makeCharsString "A / A") ∈ (castLoop g5 cast5 []).1 ∧
    rolesDenote (cast5.map CastType.character) = ["A", "A"] ∧
    ¬ (rolesDenote (cast5.map CastType.character)).Nodup := by
  refine ⟨by decide, by decide, by decide, by decide⟩

theorem rolesMerge_spec_witness :
    (castLoop g6 cast6 []).1.countP isActsInLine = 1 ∧
    (castLoop g6 cast6 []).1.countP isMergeRolesLine = cast6.length - 1 ∧
    (rolesDenote (cast6.map CastType.character)).Nodup ∧
    (rolesDenote (cast6.map CastType.character)).toFinset =
      cast6.foldl (fun s a => s ∪ (splitTrim a.character).toFinset) ∅ :=
  rolesMerge_spec g6 9 cast6 (by decide) (by decide) (by decide)

/-! ### C3 — CSV deduplication -/

theorem peopleInv_nil (pm : List Int) : PeopleInv pm [] pm :=
  ⟨[], by simp, by simp, by simp, by simp⟩

theorem peopleInv_comp (pm pm1 pm2 : List Int) (r1 r2 : List (List String))
    (h1 : PeopleInv pm r1 pm1) (h2 : PeopleInv pm1 r2 pm2) :
    PeopleInv pm (r1 ++ r2) pm2 := by
  obtain ⟨a1, e1, n1, m1, s1⟩ := h1
  obtain ⟨a2, e2, n2, m2, s2⟩ := h2
  refine ⟨a1 ++ a2, by simp [e1, e2], ?_, ?_, fun x hx => s2 x (s1 x hx)⟩
  · rw [List.map_append]
    refine List.Nodup.append n1 n2 ?_
    intro x hx1 hx2
    simp only [List.mem_map] at hx1 hx2
    obtain ⟨u, hu, hid1⟩ := hx1
    obtain ⟨w, hw, hid2⟩ := hx2
    exact (m2 w hw).1 (hid2 ▸ hid1 ▸ (m1 u hu).2)
  · intro r hr
    rcases List.mem_append.mp hr with h | h
    · exact ⟨(m1 r h).1, s2 _ (m1 r h).2⟩
    · exact ⟨fun hc => (m2 r h).1 (s1 _ hc), (m2 r h).2⟩

theorem peopleCastLoop_inv (getP : Int → PersonType) :
    ∀ (cs : List CastType) (pm : List Int),
      PeopleInv pm (peopleCastLoop getP cs pm).1 (peopleCastLoop getP cs pm).2 := by
  intro cs
  induction cs with
  | nil => intro pm; simpa [peopleCastLoop] using peopleInv_nil pm
  | cons a rest ih =>
    intro pm
    by_cases he : castEligible (getP a.id) a
    · by_cases hm : (getP a.id).id ∈ pm
      · rw [peopleCastLoop, if_pos he, if_pos hm]
        exact ih pm
      · rw [peopleCastLoop, if_pos he, if_neg hm]
        obtain ⟨recs, e, n, m, s⟩ := ih ((getP a.id).id :: pm)
        refine ⟨getP a.id :: recs, by simp [e], ?_, ?_, ?_⟩
        · simp only [List.map_cons, List.nodup_cons]
          refine ⟨?_, n⟩
          intro hc
          simp only [List.mem_map] at hc
          obtain ⟨r, hr, hid⟩ := hc
          exact (m r hr).1 (by simp [hid])
        · intro r hr
          rcases List.mem_cons.mp hr with h | h
          · subst h
            exact ⟨hm, s _ (by simp)⟩
          · exact ⟨fun hc => (m r h).1 (by simp [hc]), (m r h).2⟩
        · intro x hx
          exact s x (by simp [hx])
    · rw [peopleCastLoop, if_neg he]
      exact ih pm

theorem peopleCrewLoop_inv (getP : Int → PersonType) :
    ∀ (ds : List CrewType) (pm : List Int),
      PeopleInv pm (peopleCrewLoop getP ds pm).1 (peopleCrewLoop getP ds pm).2 := by
  intro ds
  induction ds with
  | nil => intro pm; simpa [peopleCrewLoop] using peopleInv_nil pm
  | cons d rest ih =>
    intro pm
    by_cases hj : d.job = "Director"
    · by_cases hm : (getP d.id).id ∈ pm
      · rw [peopleCrewLoop, if_pos hj, if_pos hm]
        exact ih pm
      · rw [peopleCrewLoop, if_pos hj, if_neg hm]
        obtain ⟨recs, e, n, m, s⟩ := ih ((getP d.id).id :: pm)
        refine ⟨getP d.id :: recs, by simp [e], ?_, ?_, ?_⟩
        · simp only [List.map_cons, List.nodup_cons]
          refine ⟨?_, n⟩
          intro hc
          simp only [List.mem_map] at hc
          obtain ⟨r, hr, hid⟩ := hc
          exact (m r hr).1 (by simp [hid])
        · intro r hr
          rcases List.mem_cons.mp hr with h | h
          · subst h
            exact ⟨hm, s _ (by simp)⟩
          · exact ⟨fun hc => (m r h).1 (by simp [hc]), (m r h).2⟩
        · intro x hx
          exact s x (by simp [hx])
    · rw [peopleCrewLoop, if_neg hj]
      exact ih pm

theorem printPeopleCSV_inv (getP : Int → PersonType) (m : MovieType) (pm : List Int) :
    PeopleInv pm (printPeopleCSV getP m pm).1 (printPeopleCSV getP m pm).2 := by
  rw [printPeopleCSV]
  split
  · exact peopleInv_nil pm
  · exact peopleInv_comp _ _ _ _ _ (peopleCastLoop_inv getP _ pm) (peopleCrewLoop_inv getP _ _)

theorem movieUnitCSV_people_inv (getP : Int → PersonType) (m : MovieType) (pm : List Int) :
    PeopleInv pm (movieUnitCSV getP m pm).people (movieUnitCSV getP m pm).pm := by
  rw [movieUnitCSV]
  split
  · exact printPeopleCSV_inv getP m pm
  · exact peopleInv_nil pm

theorem runCSV_people_inv (getP : Int → PersonType) :
    ∀ (movies : List MovieType) (pm : List Int),
      PeopleInv pm (runCSV getP movies pm).people (runCSV getP movies pm).pm := by
  intro movies
  induction movies with
  | nil => intro pm; simpa [runCSV] using peopleInv_nil pm
  | cons m rest ih =>
    intro pm
    rw [runCSV]
    exact peopleInv_comp _ _ _ _ _ (movieUnitCSV_people_inv getP m pm) (ih _)

theorem actorsLoop_eq (getP : Int → PersonType) (m : MovieType) :
    ∀ cs : List CastType,
      actorsLoop getP m cs =
        (cs.filter (fun a => decide (castEligible (getP a.id) a))).map (mkActorRow getP m) := by
  intro cs
  induction cs with
  | nil => simp [actorsLoop]
  | cons a rest ih =>
    by_cases he : castEligible (getP a.id) a
    · rw [actorsLoop, if_pos he]
      simp [List.filter_cons, he, ih]
    · rw [actorsLoop, if_neg he]
      simp [List.filter_cons, he, ih]

theorem runCSV_actors (getP : Int → PersonType) :
    ∀ (movies : List MovieType) (pm : List Int),
      (runCSV getP movies pm).actors =
        (movies.map (fun m =>
          if (0 < m.casts.cast.length ∧ 0 < m.casts.crew.length) ∧
              ¬ m.releaseDate.length < 4 then
            (m.casts.cast.filter (fun a => decide (castEligible (getP a.id) a))).map
              (mkActorRow getP m)
          else [])).flatten := by
  intro movies
  induction movies with
  | nil => intro pm; simp [runCSV]
  | cons m rest ih =>
    intro pm
    rw [runCSV]
    simp only [List.map_cons, List.flatten_cons]
    rw [show (runCSV getP rest (movieUnitCSV getP m pm).pm).actors = _ from ih _]
    refine congrArg₂ (· ++ ·) ?_ rfl
    rw [movieUnitCSV]
    by_cases hg : 0 < m.casts.cast.length ∧ 0 < m.casts.crew.length
    · rw [if_pos hg]
      by_cases hr : m.releaseDate.length < 4
      · simp [printActorsCSV, hr, hg]
      · simp only [printActorsCSV, if_neg hr]
        rw [actorsLoop_eq]
        simp [hg, hr]
    · rw [if_neg hg]
      simp [hg]

/-- Claim C3: over a full CSV run starting from the empty process-wide
seen-set, the people.csv data rows are the rows of a list of person records
with pairwise-distinct ids (each person id at most once, deduplicated
across all movies), while actors.csv receives exactly one row per eligible
cast occurrence of every exported movie, with no deduplication. -/
theorem csvDedup (getP : Int → PersonType) (movies : List MovieType) :
    (∃ recs : List PersonType,
        (runCSV getP movies []).people = recs.map mkPeopleRow ∧
        (recs.map PersonType.id).Nodup) ∧
    (runCSV getP movies []).actors =
      (movies.map (fun m =>
        if (0 < m.casts.cast.length ∧ 0 < m.casts.crew.length) ∧
            ¬ m.releaseDate.length < 4 then
          (m.casts.cast.filter (fun a => decide (castEligible (getP a.id) a))).map
            (mkActorRow getP m)
        else [])).flatten := by
  constructor
  · obtain ⟨recs, e, n, _, _⟩ := runCSV_people_inv getP movies []
    exact ⟨recs, e, n⟩
  · exact runCSV_actors getP movies []

/-! ### C9 — cache idempotence of the full pipelines -/

theorem runProg_mono {β α : Type} (keyFn : String → String) (net : String → β)
    (p : Prog β α) :
    ∀ (cache : String → Option β) (u : String) (b : β),
      cache u = some b → (runProg keyFn net p cache).cache u = some b := by
  induction p with
  | pure a => intro cache u b h; simpa [runProg] using h
  | getURL url k ih =>
    intro cache u b h
    cases hc : cache (keyFn url) with
    | some w =>
      rw [show runProg keyFn net (Prog.getURL url k) cache = runProg keyFn net (k w) cache by
        rw [runProg, hc]]
      exact ih w cache u b h
    | none =>
      rw [show (runProg keyFn net (Prog.getURL url k) cache).cache =
          (runProg keyFn net (k (net url))
            (fun x => if x = keyFn url then some (net url) else cache x)).cache by
        rw [runProg, hc]]
      apply ih
      by_cases hu : u = keyFn url
      · rw [hu] at h
        rw [h] at hc
        exact absurd hc (by simp)
      · simpa [hu] using h

theorem runProg_idem {β α : Type} (keyFn : String → String) (net : String → β)
    (p : Prog β α) :
    ∀ cache : String → Option β,
      runProg keyFn net p (runProg keyFn net p cache).cache =
        ⟨(runProg keyFn net p cache).out, (runProg keyFn net p cache).cache, []⟩ := by
  induction p with
  | pure a => intro cache; rfl
  | getURL url k ih =>
    intro cache
    cases hc : cache (keyFn url) with
    | some b =>
      have h1 : runProg keyFn net (Prog.getURL url k) cache = runProg keyFn net (k b) cache := by
        rw [runProg, hc]
      have h2 : (runProg keyFn net (k b) cache).cache (keyFn url) = some b :=
        runProg_mono keyFn net (k b) cache (keyFn url) b hc
      rw [h1]
      rw [show runProg keyFn net (Prog.getURL url k) (runProg keyFn net (k b) cache).cache =
          runProg keyFn net (k b) (runProg keyFn net (k b) cache).cache by
        rw [runProg, h2]]
      exact ih b cache
    | none =>
      have hc1 : (fun x => if x = keyFn url then some (net url) else cache x) (keyFn url) =
          some (net url) := by simp
      have h2 : (runProg keyFn net (k (net url))
          (fun x => if x = keyFn url then some (net url) else cache x)).cache (keyFn url) =
          some (net url) :=
        runProg_mono keyFn net (k (net url)) _ (keyFn url) (net url) hc1
      have h1 : runProg keyFn net (Prog.getURL url k) cache =
          ⟨(runProg keyFn net (k (net url))
              (fun x => if x = keyFn url then some (net url) else cache x)).out,
           (runProg keyFn net (k (net url))
              (fun x => if x = keyFn url then some (net url) else cache x)).cache,
           url :: (runProg keyFn net (k (net url))
              (fun x => if x = keyFn url then some (net url) else cache x)).fetched⟩ := by
        rw [runProg, hc]
      rw [h1]
      rw [show runProg keyFn net (Prog.getURL url k)
          (runProg keyFn net (k (net url))
            (fun x => if x = keyFn url then some (net url) else cache x)).cache =
          runProg keyFn net (k (net url))
            (runProg keyFn net (k (net url))
              (fun x => if x = keyFn url then some (net url) else cache x)).cache by
        rw [runProg, h2]]
      exact ih (net url) _

theorem runProg_nofetch {β α : Type} (keyFn : String → String) (net net2 : String → β)
    (p : Prog β α) :
    ∀ cache : String → Option β,
      (runProg keyFn net p cache).fetched = [] →
      runProg keyFn net2 p cache = runProg keyFn net p cache := by
  induction p with
  | pure a => intro cache _; rfl
  | getURL url k ih =>
    intro cache h
    cases hc : cache (keyFn url) with
    | some b =>
      rw [show runProg keyFn net (Prog.getURL url k) cache = runProg keyFn net (k b) cache by
        rw [runProg, hc]] at h ⊢
      rw [show runProg keyFn net2 (Prog.getURL url k) cache = runProg keyFn net2 (k b) cache by
        rw [runProg, hc]]
      exact ih b cache h
    | none =>
      exfalso
      rw [show (runProg keyFn net (Prog.getURL url k) cache).fetched =
          url :: (runProg keyFn net (k (net url))
            (fun x => if x = keyFn url then some (net url) else cache x)).fetched by
        rw [runProg, hc]] at h
      simp at h

/-- Claim C9: with the response cache already populated by a run, the whole
pipeline (either variant) is a deterministic function of the cached bytes
and the flag values: rerunning it from the resulting cache reproduces the
first run's output byte for byte, takes the network-fetch branch of
`getCacheOrRequest` on no URL, and produces the same output under any other
network behaviour whatsoever. -/
theorem pipelineIdempotent (β : Type) (dPg : β → DiscoverPage) (dM : β → MovieType)
    (dP : β → PersonType) (apikey : String) (vc : Int) (fuel : Nat)
    (cache : String → Option β) (net net2 : String → β) :
    (runProg (getFileSafe apikey) net (cypherMainProg apikey vc dPg dM dP fuel)
        (runProg (getFileSafe apikey) net (cypherMainProg apikey vc dPg dM dP fuel) cache).cache =
      ⟨(runProg (getFileSafe apikey) net (cypherMainProg apikey vc dPg dM dP fuel) cache).out,
       (runProg (getFileSafe apikey) net (cypherMainProg apikey vc dPg dM dP fuel) cache).cache,
       []⟩ ∧
     runProg (getFileSafe apikey) net2 (cypherMainProg apikey vc dPg dM dP fuel)
        (runProg (getFileSafe apikey) net (cypherMainProg apikey vc dPg dM dP fuel) cache).cache =
      ⟨(runProg (getFileSafe apikey) net (cypherMainProg apikey vc dPg dM dP fuel) cache).out,
       (runProg (getFileSafe apikey) net (cypherMainProg apikey vc dPg dM dP fuel) cache).cache,
       []⟩) ∧
    (runProg (getFileSafe apikey) net (csvMainProg apikey vc dPg dM dP fuel)
        (runProg (getFileSafe apikey) net (csvMainProg apikey vc dPg dM dP fuel) cache).cache =
      ⟨(runProg (getFileSafe apikey) net (csvMainProg apikey vc dPg dM dP fuel) cache).out,
       (runProg (getFileSafe apikey) net (csvMainProg apikey vc dPg dM dP fuel) cache).cache,
       []⟩ ∧
     runProg (getFileSafe apikey) net2 (csvMainProg apikey vc dPg dM dP fuel)
        (runProg (getFileSafe apikey) net (csvMainProg apikey vc dPg dM dP fuel) cache).cache =
      ⟨(runProg (getFileSafe apikey) net (csvMainProg apikey vc dPg dM dP fuel) cache).out,
       (runProg (getFileSafe apikey) net (csvMainProg apikey vc dPg dM dP fuel) cache).cache,
       []⟩) := by
  have hcy := runProg_idem (getFileSafe apikey) net (cypherMainProg apikey vc dPg dM dP fuel) cache
  have hcsv := runProg_idem (getFileSafe apikey) net (csvMainProg apikey vc dPg dM dP fuel) cache
  refine ⟨⟨hcy, ?_⟩, hcsv, ?_⟩
  · rw [runProg_nofetch (getFileSafe apikey) net net2 _ _ (by rw [hcy])]
    exact hcy
  · rw [runProg_nofetch (getFileSafe apikey) net net2 _ _ (by rw [hcsv])]
    exact hcsv
